import Mathlib

/-!
Shallow embedding of the SmartFocus.AI person-tracking core
(`src/lib/tracker.ts`): the `PersonTracker` frame-to-frame association
engine and the `findPersonAtPoint` point query.

Modelling conventions:
* JavaScript floating-point numbers are idealized as real numbers (`ℝ`);
  `Math.sqrt` becomes `Real.sqrt`.
* The mutable `PersonTracker` class becomes a state record
  (`tracked`, `nextId`) with `update` returning the new state together with
  the returned track list.
* The imperative `for`-loops with running indices become index-carrying
  structural recursions (`buildCosts`, `stepAll`, `spawnTracks`), and the
  `nextId++` counter is threaded explicitly (`mkFresh`, `spawnTracks`).
* `costs.sort((a, b) => b.score - a.score)` is a stable sort ordering by
  descending score; it is embedded as `List.mergeSort` with the
  comparator `costLe a b = (b.score ≤ a.score)`.
-/

noncomputable section

namespace SmartFocus

/-- An axis-aligned rectangle, the `[x, y, width, height]` bbox tuple of the
source. -/
structure Box where
  x : ℝ
  y : ℝ
  w : ℝ
  h : ℝ

/-- The `Detection` interface of the source (`cls` is the `class` field,
renamed because `class` is a Lean keyword). -/
structure Detection where
  id : ℕ
  bbox : Box
  score : ℝ
  cls : String

/-- The `TrackedPerson` interface of the source. -/
structure TrackedPerson where
  id : ℕ
  bbox : Box
  score : ℝ
  age : ℕ
  velocity : ℝ × ℝ

/-- The `iou` function of the source: intersection over union of two boxes,
`0` when the union is not positive. -/
def iou (a b : Box) : ℝ :=
  let x1 := max a.x b.x
  let y1 := max a.y b.y
  let x2 := min (a.x + a.w) (b.x + b.w)
  let y2 := min (a.y + a.h) (b.y + b.h)
  let intersection := max 0 (x2 - x1) * max 0 (y2 - y1)
  let areaA := a.w * a.h
  let areaB := b.w * b.h
  let union := areaA + areaB - intersection
  if union > 0 then intersection / union else 0

/-- The `centerDistance` function of the source: Euclidean distance between
the two box centers. -/
def centerDistance (a b : Box) : ℝ :=
  let cx1 := a.x + a.w / 2
  let cy1 := a.y + a.h / 2
  let cx2 := b.x + b.w / 2
  let cy2 := b.y + b.h / 2
  Real.sqrt ((cx1 - cx2) ^ 2 + (cy1 - cy2) ^ 2)

/-- Tracker state: the `tracked` array and the `nextId` counter of the
`PersonTracker` class. -/
structure PersonTracker where
  tracked : List TrackedPerson
  nextId : ℕ

/-- The `maxAge` constant of the source (frames before losing a track). -/
def maxAge : ℕ := 15

/-- The `iouThreshold` constant of the source (declared there but not used
by `update`). -/
def iouThreshold : ℝ := 0.2

/-- A freshly created track for a detection: `age` 0, `velocity` (0, 0),
`bbox`/`score` from the detection (the object literal pushed by the
source's bootstrap and spawn paths). -/
def newTrack (nid : ℕ) (d : Detection) : TrackedPerson :=
  { id := nid, bbox := d.bbox, score := d.score, age := 0, velocity := (0, 0) }

/-- The bootstrap `map` of the source: one fresh track per detection, ids
assigned by the incrementing `nextId++` counter. -/
def mkFresh (nid : ℕ) : List Detection → List TrackedPerson
  | [] => []
  | d :: rest => newTrack nid d :: mkFresh (nid + 1) rest

/-- The predicted rectangle of a track: its bbox translated by its velocity,
size unchanged (the `predicted` array of the source). -/
def predictedBox (t : TrackedPerson) : Box :=
  { x := t.bbox.x + t.velocity.1, y := t.bbox.y + t.velocity.2,
    w := t.bbox.w, h := t.bbox.h }

/-- One entry of the source's `costs` array. -/
structure Cost where
  trackIdx : ℕ
  detIdx : ℕ
  score : ℝ

/-- The per-pair score computed in the source's cost loop:
`iou(predicted, det.bbox) * 0.6 + max(0, 1 - dist / (maxDim * 2)) * 0.4`
with `maxDim = max(predicted.w, predicted.h, 100)`. -/
def combinedScore (t : TrackedPerson) (d : Detection) : ℝ :=
  let predicted := predictedBox t
  let iouScore := iou predicted d.bbox
  let dist := centerDistance predicted d.bbox
  let maxDim := max (max predicted.w predicted.h) 100
  let distScore := max 0 (1 - dist / (maxDim * 2))
  iouScore * 0.6 + distScore * 0.4

/-- Inner loop of the source's cost-matrix construction: all retained
candidates for one track `t` (at index `ti`) against the detections, `di`
being the index of the first detection of the list. -/
def buildCostsRow (t : TrackedPerson) (ti : ℕ) (di : ℕ) :
    List Detection → List Cost
  | [] => []
  | d :: rest =>
    if combinedScore t d > 0.1 then
      ⟨ti, di, combinedScore t d⟩ :: buildCostsRow t ti (di + 1) rest
    else
      buildCostsRow t ti (di + 1) rest

/-- Outer loop of the source's cost-matrix construction, `ti` being the
index of the first track of the list. -/
def buildCosts (dets : List Detection) (ti : ℕ) :
    List TrackedPerson → List Cost
  | [] => []
  | t :: rest => buildCostsRow t ti 0 dets ++ buildCosts dets (ti + 1) rest

/-- The comparator of `costs.sort((a, b) => b.score - a.score)`: `a` may
come before `b` when `b.score ≤ a.score` (descending by score). -/
def costLe (a b : Cost) : Bool := decide (b.score ≤ a.score)

/-- The source's `costs.sort(...)`: a stable sort, descending by score. -/
def sortCosts (costs : List Cost) : List Cost := costs.mergeSort costLe

/-- The greedy matching loop of the source: walk the sorted costs, skip a
pair when its track or its detection is already committed, otherwise
commit it.  `acc` is the list of committed (trackIdx, detIdx) pairs, which
plays the role of the `matched` / `matchedDetections` sets. -/
def greedyLoop (acc : List (ℕ × ℕ)) : List Cost → List (ℕ × ℕ)
  | [] => acc
  | c :: rest =>
    if (acc.any fun m => m.1 == c.trackIdx) || (acc.any fun m => m.2 == c.detIdx) then
      greedyLoop acc rest
    else
      greedyLoop (acc ++ [(c.trackIdx, c.detIdx)]) rest

/-- The whole greedy matching pass: sort, then walk. -/
def greedyMatch (costs : List Cost) : List (ℕ × ℕ) := greedyLoop [] (sortCosts costs)

/-- The per-track effect of one `update` call after matching: a matched
track takes the detection's bbox and score, age 0, and velocity equal to
the detection position minus the track's pre-update position; an unmatched
track ages by one and coasts on its velocity. -/
def stepTrack (dets : List Detection) (mts : List (ℕ × ℕ)) (ti : ℕ)
    (t : TrackedPerson) : TrackedPerson :=
  match mts.find? fun m => m.1 == ti with
  | some m =>
    match dets[m.2]? with
    | some d =>
      { t with velocity := (d.bbox.x - t.bbox.x, d.bbox.y - t.bbox.y),
               bbox := d.bbox, score := d.score, age := 0 }
    | none => t
  | none =>
    { t with age := t.age + 1,
             bbox := { t.bbox with x := t.bbox.x + t.velocity.1,
                                   y := t.bbox.y + t.velocity.2 } }

/-- The indexed loop applying `stepTrack` to every current track, `ti`
being the index of the first track of the list. -/
def stepAll (dets : List Detection) (mts : List (ℕ × ℕ)) (ti : ℕ) :
    List TrackedPerson → List TrackedPerson
  | [] => []
  | t :: rest => stepTrack dets mts ti t :: stepAll dets mts (ti + 1) rest

/-- The spawn loop of the source: for every detection index not committed
to a match, push a fresh track (incrementing `nextId`).  Returns the
spawned tracks and the final counter; `di` is the index of the first
detection of the list. -/
def spawnTracks (mts : List (ℕ × ℕ)) (nid di : ℕ) :
    List Detection → List TrackedPerson × ℕ
  | [] => ([], nid)
  | d :: rest =>
    if mts.any fun m => m.2 == di then
      spawnTracks mts nid (di + 1) rest
    else
      let r := spawnTracks mts (nid + 1) (di + 1) rest
      (newTrack nid d :: r.1, r.2)

/-- The filter at the top of `update`: only `"person"` detections reach the
tracking core. -/
def personsOf (detections : List Detection) : List Detection :=
  detections.filter fun d => d.cls == "person"

/-- The `update` method of the source: bootstrap when no tracks exist,
otherwise score, greedily match, apply the committed pairs, age the
unmatched, evict
old tracks, spawn the unmatched detections.  Returns the new engine state
together with the returned track list. -/
def PersonTracker.update (s : PersonTracker) (detections : List Detection) :
    PersonTracker × List TrackedPerson :=
  let personDetections := personsOf detections
  if s.tracked.length = 0 then
    let fresh := mkFresh s.nextId personDetections
    ({ tracked := fresh, nextId := s.nextId + personDetections.length }, fresh)
  else
    let costs := buildCosts personDetections 0 s.tracked
    let mts := greedyMatch costs
    let stepped := stepAll personDetections mts 0 s.tracked
    let surviving := stepped.filter fun t => decide (t.age < maxAge)
    let spawned := spawnTracks mts s.nextId 0 personDetections
    ({ tracked := surviving ++ spawned.1, nextId := spawned.2 },
     surviving ++ spawned.1)

/-- The `reset` method of the source: clear the tracks, restart the id
counter at 1. -/
def PersonTracker.reset (_ : PersonTracker) : PersonTracker :=
  { tracked := [], nextId := 1 }

/-- The `getTracked` accessor of the source. -/
def PersonTracker.getTracked (s : PersonTracker) : List TrackedPerson :=
  s.tracked

/-- A freshly constructed tracker (`new PersonTracker()`): no tracks,
counter at 1. -/
def PersonTracker.init : PersonTracker :=
  { tracked := [], nextId := 1 }

/-- Containment test of `findPersonAtPoint`, inclusive on all four edges. -/
def containsPt (p : TrackedPerson) (vx vy : ℝ) : Prop :=
  p.bbox.x ≤ vx ∧ vx ≤ p.bbox.x + p.bbox.w ∧
  p.bbox.y ≤ vy ∧ vy ≤ p.bbox.y + p.bbox.h

instance (p : TrackedPerson) (vx vy : ℝ) : Decidable (containsPt p vx vy) := by
  unfold containsPt
  infer_instance

/-- The `findPersonAtPoint` function of the source: scale the canvas point
into source-frame space, then return the first track whose box contains
it. -/
def findPersonAtPoint (persons : List TrackedPerson)
    (x y canvasWidth canvasHeight videoWidth videoHeight : ℝ) :
    Option TrackedPerson :=
  let scaleX := videoWidth / canvasWidth
  let scaleY := videoHeight / canvasHeight
  let vx := x * scaleX
  let vy := y * scaleY
  persons.find? fun p => decide (containsPt p vx vy)

/-- Ids of a track list, in list order. -/
def trackIds (r : List TrackedPerson) : List ℕ := r.map fun t => t.id

/-- Engine state after a sequence of `update` calls. -/
def runAll (s : PersonTracker) : List (List Detection) → PersonTracker
  | [] => s
  | ds :: rest => runAll (s.update ds).1 rest

/-- The sequence of track lists returned by a sequence of `update` calls. -/
def runTrace (s : PersonTracker) : List (List Detection) → List (List TrackedPerson)
  | [] => []
  | ds :: rest => (s.update ds).2 :: runTrace (s.update ds).1 rest

/-- All ids ever observed in a trace, in order of first appearance. -/
def observedIds (trace : List (List TrackedPerson)) : List ℕ :=
  trace.foldl (fun acc r => acc ++ (trackIds r).filter fun i => !(acc.contains i)) []

/-! Structural lemmas about the pieces of `update`. -/

theorem stepTrack_id (dets : List Detection) (mts : List (ℕ × ℕ)) (ti : ℕ)
    (t : TrackedPerson) : (stepTrack dets mts ti t).id = t.id := by
  unfold stepTrack
  split
  · split <;> rfl
  · rfl

theorem stepAll_length (dets : List Detection) (mts : List (ℕ × ℕ)) (ti : ℕ)
    (l : List TrackedPerson) : (stepAll dets mts ti l).length = l.length := by
  induction l generalizing ti with
  | nil => rfl
  | cons t rest ih => simp [stepAll, ih]

theorem trackIds_stepAll (dets : List Detection) (mts : List (ℕ × ℕ)) (ti : ℕ)
    (l : List TrackedPerson) : trackIds (stepAll dets mts ti l) = trackIds l := by
  induction l generalizing ti with
  | nil => rfl
  | cons t rest ih => simp [stepAll, trackIds, stepTrack_id]; simpa [trackIds] using ih (ti + 1)

theorem stepAll_getElem? (dets : List Detection) (mts : List (ℕ × ℕ)) (ti i : ℕ)
    (l : List TrackedPerson) :
    (stepAll dets mts ti l)[i]? = (l[i]?).map (stepTrack dets mts (ti + i)) := by
  induction l generalizing ti i with
  | nil => simp [stepAll]
  | cons t rest ih =>
    cases i with
    | zero => simp [stepAll]
    | succ j =>
      have := ih (ti + 1) j
      simp only [stepAll, List.getElem?_cons_succ, this]
      ring_nf

theorem mkFresh_length (nid : ℕ) (ds : List Detection) :
    (mkFresh nid ds).length = ds.length := by
  induction ds generalizing nid with
  | nil => rfl
  | cons d rest ih => simp [mkFresh, ih]

theorem trackIds_mkFresh (nid : ℕ) (ds : List Detection) :
    trackIds (mkFresh nid ds) = List.range' nid ds.length := by
  induction ds generalizing nid with
  | nil => rfl
  | cons d rest ih => simp [mkFresh, trackIds, List.range'_succ, newTrack]; simpa [trackIds] using ih (nid + 1)

theorem mkFresh_getElem? (nid i : ℕ) (ds : List Detection) :
    (mkFresh nid ds)[i]? = (ds[i]?).map fun d => newTrack (nid + i) d := by
  induction ds generalizing nid i with
  | nil => simp [mkFresh]
  | cons d rest ih =>
    cases i with
    | zero => simp [mkFresh]
    | succ j =>
      have := ih (nid + 1) j
      simp only [mkFresh, List.getElem?_cons_succ, this]
      ring_nf

theorem spawnTracks_decomp (mts : List (ℕ × ℕ)) (l : List Detection) :
    ∀ nid di, ∃ m, trackIds (spawnTracks mts nid di l).1 = List.range' nid m ∧
      (spawnTracks mts nid di l).2 = nid + m := by
  induction l with
  | nil => intro nid di; exact ⟨0, rfl, rfl⟩
  | cons d rest ih =>
    intro nid di
    by_cases h : mts.any fun m => m.2 == di
    · simpa [spawnTracks, h] using ih nid (di + 1)
    · obtain ⟨m, hids, hnid⟩ := ih (nid + 1) (di + 1)
      refine ⟨m + 1, ?_, ?_⟩
      · simp [spawnTracks, h, trackIds, newTrack, List.range'_succ]
        simpa [trackIds] using hids
      · simp only [spawnTracks, if_neg h]
        omega

theorem spawnTracks_age (mts : List (ℕ × ℕ)) (l : List Detection) :
    ∀ nid di t, t ∈ (spawnTracks mts nid di l).1 → t.age = 0 := by
  induction l with
  | nil => intro nid di t ht; simp [spawnTracks] at ht
  | cons d rest ih =>
    intro nid di t ht
    by_cases h : mts.any fun m => m.2 == di
    · simp only [spawnTracks, if_pos h] at ht
      exact ih nid (di + 1) t ht
    · simp only [spawnTracks, if_neg h, List.mem_cons] at ht
      rcases ht with h1 | h2
      · simp [h1, newTrack]
      · exact ih (nid + 1) (di + 1) t h2

theorem trackIds_append (a b : List TrackedPerson) :
    trackIds (a ++ b) = trackIds a ++ trackIds b :=
  List.map_append _ _ _

theorem update_empty (s : PersonTracker) (ds : List Detection)
    (h : s.tracked.length = 0) :
    s.update ds = ({ tracked := mkFresh s.nextId (personsOf ds),
                     nextId := s.nextId + (personsOf ds).length },
                   mkFresh s.nextId (personsOf ds)) := by
  unfold PersonTracker.update
  simp [h]

theorem update_nonempty (s : PersonTracker) (ds : List Detection)
    (h : ¬s.tracked.length = 0) :
    s.update ds =
      ({ tracked :=
          ((stepAll (personsOf ds)
              (greedyMatch (buildCosts (personsOf ds) 0 s.tracked)) 0
              s.tracked).filter fun t => decide (t.age < maxAge)) ++
            (spawnTracks (greedyMatch (buildCosts (personsOf ds) 0 s.tracked))
              s.nextId 0 (personsOf ds)).1,
         nextId :=
          (spawnTracks (greedyMatch (buildCosts (personsOf ds) 0 s.tracked))
            s.nextId 0 (personsOf ds)).2 },
       ((stepAll (personsOf ds)
           (greedyMatch (buildCosts (personsOf ds) 0 s.tracked)) 0
           s.tracked).filter fun t => decide (t.age < maxAge)) ++
         (spawnTracks (greedyMatch (buildCosts (personsOf ds) 0 s.tracked))
           s.nextId 0 (personsOf ds)).1) := by
  unfold PersonTracker.update
  simp [h]

/-- Across one `update` call, the id list of the resulting state is a
sublist of the old id list (survivors, in their old relative order)
followed by a contiguous block of fresh ids starting at the old `nextId`;
the returned list is the new state's track list. -/
theorem update_decomp (s : PersonTracker) (ds : List Detection) :
    ∃ sub m, sub.Sublist (trackIds s.tracked) ∧
      trackIds (s.update ds).1.tracked = sub ++ List.range' s.nextId m ∧
      (s.update ds).1.nextId = s.nextId + m ∧
      (s.update ds).2 = (s.update ds).1.tracked := by
  by_cases h : s.tracked.length = 0
  · refine ⟨[], (personsOf ds).length, List.nil_sublist _, ?_, ?_, ?_⟩ <;>
      simp [update_empty s ds h, trackIds_mkFresh]
  · obtain ⟨m, hids, hnid⟩ :=
      spawnTracks_decomp (greedyMatch (buildCosts (personsOf ds) 0 s.tracked))
        (personsOf ds) s.nextId 0
    refine ⟨trackIds ((stepAll (personsOf ds)
        (greedyMatch (buildCosts (personsOf ds) 0 s.tracked)) 0
        s.tracked).filter fun t => decide (t.age < maxAge)), m, ?_, ?_, ?_, ?_⟩
    · have h1 : (trackIds ((stepAll (personsOf ds)
          (greedyMatch (buildCosts (personsOf ds) 0 s.tracked)) 0
          s.tracked).filter fun t => decide (t.age < maxAge))).Sublist
          (trackIds (stepAll (personsOf ds)
            (greedyMatch (buildCosts (personsOf ds) 0 s.tracked)) 0 s.tracked)) :=
        List.Sublist.map _ (List.filter_sublist _)
      rw [trackIds_stepAll] at h1
      exact h1
    · rw [update_nonempty s ds h]
      show trackIds (_ ++ _) = _
      rw [trackIds_append, hids]
    · rw [update_nonempty s ds h]
      exact hnid
    · rw [update_nonempty s ds h]

/-- The id invariant of a tracker state: ids strictly increase along the
track list, and all are below the `nextId` counter. -/
def Inv (s : PersonTracker) : Prop :=
  List.Pairwise (· < ·) (trackIds s.tracked) ∧
    ∀ i ∈ trackIds s.tracked, i < s.nextId

theorem inv_init : Inv PersonTracker.init := by
  constructor <;> simp [PersonTracker.init, trackIds]

theorem update_inv (s : PersonTracker) (ds : List Detection) (h : Inv s) :
    Inv (s.update ds).1 := by
  obtain ⟨sub, m, hsub, hids, hnid, -⟩ := update_decomp s ds
  constructor
  · rw [hids]
    refine List.pairwise_append.mpr ⟨h.1.sublist hsub, ?_, ?_⟩
    · exact List.pairwise_lt_range' s.nextId m
    · intro a ha b hb
      have h1 : a < s.nextId := h.2 a (hsub.subset ha)
      have h2 : s.nextId ≤ b := (List.mem_range'_1.mp hb).1
      omega
  · rw [hids, hnid]
    intro i hi
    rcases List.mem_append.mp hi with h1 | h2
    · have := h.2 i (hsub.subset h1)
      omega
    · have := (List.mem_range'_1.mp h2).2
      omega

theorem update_nextId_mono (s : PersonTracker) (ds : List Detection) :
    s.nextId ≤ (s.update ds).1.nextId := by
  obtain ⟨-, m, -, -, hnid, -⟩ := update_decomp s ds
  omega

theorem update_mem_ids (s : PersonTracker) (ds : List Detection) (n : ℕ)
    (h : n ∈ trackIds (s.update ds).1.tracked) :
    n ∈ trackIds s.tracked ∨ s.nextId ≤ n := by
  obtain ⟨sub, m, hsub, hids, -, -⟩ := update_decomp s ds
  rw [hids] at h
  rcases List.mem_append.mp h with h1 | h2
  · exact Or.inl (hsub.subset h1)
  · exact Or.inr (List.mem_range'_1.mp h2).1

theorem update_returns_tracked (s : PersonTracker) (ds : List Detection) :
    (s.update ds).2 = (s.update ds).1.tracked := by
  obtain ⟨-, -, -, -, -, h⟩ := update_decomp s ds
  exact h

/-! Trace-level lemmas: behaviour of ids across a whole sequence of
`update` calls. -/

theorem runTrace_cons (s : PersonTracker) (ds : List Detection)
    (rest : List (List Detection)) :
    runTrace s (ds :: rest) = (s.update ds).2 :: runTrace (s.update ds).1 rest :=
  rfl

theorem trace_mem_ids (dss : List (List Detection)) :
    ∀ (s : PersonTracker) (k n : ℕ),
      n ∈ trackIds ((runTrace s dss).getD k []) →
      n ∈ trackIds s.tracked ∨ s.nextId ≤ n := by
  induction dss with
  | nil =>
    intro s k n h
    simp [runTrace, trackIds] at h
  | cons ds rest ih =>
    intro s k n h
    cases k with
    | zero =>
      rw [runTrace_cons] at h
      simp only [List.getD_cons_zero] at h
      rw [update_returns_tracked] at h
      exact update_mem_ids s ds n h
    | succ k' =>
      rw [runTrace_cons] at h
      simp only [List.getD_cons_succ] at h
      rcases ih (s.update ds).1 k' n h with h1 | h2
      · exact update_mem_ids s ds n h1
      · exact Or.inr (le_trans (update_nextId_mono s ds) h2)

theorem trace_persist (dss : List (List Detection)) :
    ∀ (s : PersonTracker), Inv s → ∀ (n k j : ℕ), j ≤ k →
      n ∈ trackIds s.tracked →
      n ∈ trackIds ((runTrace s dss).getD k []) →
      n ∈ trackIds ((runTrace s dss).getD j []) := by
  induction dss with
  | nil =>
    intro s hs n k j hjk h0 hk
    simp [runTrace, trackIds] at hk
  | cons ds rest ih =>
    intro s hs n k j hjk h0 hk
    have hmem1 : n ∈ trackIds (s.update ds).1.tracked := by
      cases k with
      | zero =>
        rw [runTrace_cons] at hk
        simp only [List.getD_cons_zero] at hk
        rwa [update_returns_tracked] at hk
      | succ k' =>
        rw [runTrace_cons] at hk
        simp only [List.getD_cons_succ] at hk
        rcases trace_mem_ids rest (s.update ds).1 k' n hk with h1 | h2
        · exact h1
        · exfalso
          have hlt : n < s.nextId := hs.2 n h0
          have := update_nextId_mono s ds
          omega
    cases j with
    | zero =>
      rw [runTrace_cons]
      simp only [List.getD_cons_zero]
      rwa [update_returns_tracked]
    | succ j' =>
      cases k with
      | zero => omega
      | succ k' =>
        rw [runTrace_cons] at hk ⊢
        simp only [List.getD_cons_succ] at hk ⊢
        exact ih (s.update ds).1 (update_inv s ds hs) n k' j' (by omega) hmem1 hk

theorem trace_contiguous (dss : List (List Detection)) :
    ∀ (s : PersonTracker), Inv s → ∀ (n i j k : ℕ), i ≤ j → j ≤ k →
      n ∈ trackIds ((runTrace s dss).getD i []) →
      n ∈ trackIds ((runTrace s dss).getD k []) →
      n ∈ trackIds ((runTrace s dss).getD j []) := by
  induction dss with
  | nil =>
    intro s hs n i j k hij hjk hi hk
    simp [runTrace, trackIds] at hi
  | cons ds rest ih =>
    intro s hs n i j k hij hjk hi hk
    cases i with
    | zero =>
      rw [runTrace_cons] at hi
      simp only [List.getD_cons_zero] at hi
      rw [update_returns_tracked] at hi
      cases j with
      | zero =>
        rw [runTrace_cons]
        simp only [List.getD_cons_zero]
        rwa [update_returns_tracked]
      | succ j' =>
        cases k with
        | zero => omega
        | succ k' =>
          rw [runTrace_cons] at hk ⊢
          simp only [List.getD_cons_succ] at hk ⊢
          exact trace_persist rest (s.update ds).1 (update_inv s ds hs) n k' j'
            (by omega) hi hk
    | succ i' =>
      cases j with
      | zero => omega
      | succ j' =>
        cases k with
        | zero => omega
        | succ k' =>
          rw [runTrace_cons] at hi hk ⊢
          simp only [List.getD_cons_succ] at hi hk ⊢
          exact ih (s.update ds).1 (update_inv s ds hs) n i' j' k'
            (by omega) (by omega) hi hk

theorem observed_aux (dss : List (List Detection)) :
    ∀ (s : PersonTracker) (acc : List ℕ), Inv s →
      List.Pairwise (· < ·) acc →
      (∀ a ∈ acc, a < s.nextId) →
      (∀ a ∈ trackIds s.tracked, a ∈ acc) →
      List.Pairwise (· < ·)
        ((runTrace s dss).foldl
          (fun acc r => acc ++ (trackIds r).filter fun i => !(acc.contains i)) acc) := by
  induction dss with
  | nil =>
    intro s acc hs hacc hbound hsub
    simpa [runTrace] using hacc
  | cons ds rest ih =>
    intro s acc hs hacc hbound hsub
    rw [runTrace_cons]
    simp only [List.foldl_cons]
    rw [update_returns_tracked]
    have hs1 : Inv (s.update ds).1 := update_inv s ds hs
    apply ih (s.update ds).1
    · exact hs1
    · refine List.pairwise_append.mpr ⟨hacc, ?_, ?_⟩
      · exact hs1.1.sublist (List.filter_sublist _)
      · intro a ha b hb
        have hb' := List.mem_filter.mp hb
        have hbmem : b ∈ trackIds (s.update ds).1.tracked := hb'.1
        have hbnot : b ∉ acc := by simpa using hb'.2
        rcases update_mem_ids s ds b hbmem with h1 | h2
        · exact absurd (hsub b h1) hbnot
        · have := hbound a ha
          omega
    · intro a ha
      rcases List.mem_append.mp ha with h1 | h2
      · have h3 := hbound a h1
        have := update_nextId_mono s ds
        omega
      · exact hs1.2 a (List.mem_filter.mp h2).1
    · intro a ha
      by_cases hmem : a ∈ acc
      · exact List.mem_append.mpr (Or.inl hmem)
      · refine List.mem_append.mpr (Or.inr (List.mem_filter.mpr ⟨ha, ?_⟩))
        simpa using hmem

/-! Claim theorems. -/

/-- C1: across any sequence of `update` calls on one `PersonTracker`
instance with no intervening `reset`, the ids observed in the returned
track sets, listed in order of first appearance, are pairwise distinct and
strictly increasing (so each was assigned exactly once), and the set of
frames in which a given id is present is contiguous: once a track is
evicted its id never reappears. -/
theorem ids_unique_monotone_never_reissued (dss : List (List Detection)) :
    List.Pairwise (· < ·) (observedIds (runTrace PersonTracker.init dss)) ∧
    ∀ (n i j k : ℕ), i ≤ j → j ≤ k →
      n ∈ trackIds ((runTrace PersonTracker.init dss).getD i []) →
      n ∈ trackIds ((runTrace PersonTracker.init dss).getD k []) →
      n ∈ trackIds ((runTrace PersonTracker.init dss).getD j []) := by
  constructor
  · exact observed_aux dss PersonTracker.init [] inv_init (by simp) (by simp)
      (by simp [PersonTracker.init, trackIds])
  · intro n i j k hij hjk hi hk
    exact trace_contiguous dss PersonTracker.init inv_init n i j k hij hjk hi hk

/-- A concrete person detection used by witnesses. -/
def dWit : Detection := ⟨0, ⟨0, 0, 50, 50⟩, 9 / 10, "person"⟩

theorem ids_unique_monotone_never_reissued_witness :
    List.Pairwise (· < ·) (observedIds (runTrace PersonTracker.init [[dWit], []])) ∧
      1 ∈ trackIds ((runTrace PersonTracker.init [[dWit], []]).getD 1 []) := by
  have h0 : 1 ∈ trackIds ((runTrace PersonTracker.init [[dWit], []]).getD 0 []) := by
    simp [runTrace, PersonTracker.update, personsOf, mkFresh, newTrack, trackIds,
      PersonTracker.init, dWit]
  have h1 : 1 ∈ trackIds ((runTrace PersonTracker.init [[dWit], []]).getD 1 []) := by
    simp [runTrace, PersonTracker.update, personsOf, mkFresh, newTrack, trackIds,
      PersonTracker.init, dWit, buildCosts, buildCostsRow, sortCosts, greedyMatch,
      greedyLoop, stepAll, stepTrack, spawnTracks, maxAge]
  exact ⟨(ids_unique_monotone_never_reissued [[dWit], []]).1,
    (ids_unique_monotone_never_reissued [[dWit], []]).2 1 0 1 1 (by omega)
      (le_refl 1) h0 h1⟩

/-- C7: an `update` call on an engine with no current tracks returns one
track per person detection, each with the detection's bbox and score, age
0, velocity (0, 0), and consecutive fresh ids starting at the current
counter (so 1..N on a fresh or reset engine, whose counter is 1). -/
theorem bootstrap_update (s : PersonTracker) (ds : List Detection)
    (h : s.tracked = []) :
    (s.update ds).2.length = (personsOf ds).length ∧
    trackIds (s.update ds).2 = List.range' s.nextId (personsOf ds).length ∧
    ∀ i : ℕ, ((s.update ds).2)[i]? = ((personsOf ds)[i]?).map fun d =>
      { id := s.nextId + i, bbox := d.bbox, score := d.score, age := 0,
        velocity := (0, 0) } := by
  have hlen : s.tracked.length = 0 := by simp [h]
  rw [update_empty s ds hlen]
  refine ⟨mkFresh_length _ _, trackIds_mkFresh _ _, fun i => ?_⟩
  rw [mkFresh_getElem?]
  rfl

theorem bootstrap_update_witness :
    (PersonTracker.init.update [dWit]).2.length = 1 ∧
    trackIds (PersonTracker.init.update [dWit]).2 = [1] ∧
    ((PersonTracker.init.update [dWit]).2)[0]? = some
      { id := 1, bbox := ⟨0, 0, 50, 50⟩, score := 9 / 10, age := 0,
        velocity := (0, 0) } := by
  obtain ⟨h1, h2, h3⟩ := bootstrap_update PersonTracker.init [dWit] rfl
  refine ⟨?_, ?_, ?_⟩
  · simpa [personsOf, dWit] using h1
  · simpa [personsOf, dWit, PersonTracker.init] using h2
  · have := h3 0
    simpa [personsOf, dWit, PersonTracker.init] using this

/-- C9: `reset` leaves the engine with no tracks and the id counter back at
its initial value 1, so after any sequence of updates, resetting and then
updating with a single person detection yields exactly one track with id
1. -/
theorem reset_restarts (dss : List (List Detection)) (ds : List Detection)
    (d : Detection) (h : personsOf ds = [d]) :
    (runAll PersonTracker.init dss).reset = PersonTracker.init ∧
    (((runAll PersonTracker.init dss).reset).update ds).2 =
      [{ id := 1, bbox := d.bbox, score := d.score, age := 0,
         velocity := (0, 0) }] := by
  refine ⟨rfl, ?_⟩
  have hreset : (runAll PersonTracker.init dss).reset = PersonTracker.init := rfl
  rw [hreset, update_empty PersonTracker.init ds rfl]
  show mkFresh 1 (personsOf ds) = _
  rw [h]
  rfl

theorem reset_restarts_witness :
    ((((runAll PersonTracker.init [[dWit], [dWit]]).reset).update [dWit]).2 =
      [{ id := 1, bbox := ⟨0, 0, 50, 50⟩, score := 9 / 10, age := 0,
         velocity := (0, 0) }]) := by
  have := (reset_restarts [[dWit], [dWit]] [dWit] dWit (by simp [personsOf, dWit])).2
  simpa [dWit] using this

/-- Every run of the spawn loop produces fresh tracks built, in order, from
a subsequence of the detection list. -/
theorem spawnTracks_sublist (mts : List (ℕ × ℕ)) (l : List Detection) :
    ∀ nid di, ∃ sel, sel.Sublist l ∧ (spawnTracks mts nid di l).1 = mkFresh nid sel := by
  induction l with
  | nil => intro nid di; exact ⟨[], List.Sublist.refl _, rfl⟩
  | cons d rest ih =>
    intro nid di
    by_cases h : mts.any fun m => m.2 == di
    · obtain ⟨sel, hsub, heq⟩ := ih nid (di + 1)
      refine ⟨sel, hsub.cons d, ?_⟩
      simpa [spawnTracks, h] using heq
    · obtain ⟨sel, hsub, heq⟩ := ih (nid + 1) (di + 1)
      refine ⟨d :: sel, hsub.cons₂ d, ?_⟩
      simp only [spawnTracks, if_neg h, mkFresh]
      rw [heq]

/-- C10: every `update` call keeps the surviving tracks in their previous
relative order (as witnessed on ids: the returned id list is a sublist of
the old one followed by a block of consecutive fresh ids), appends the
newly spawned tracks after all survivors, built in order from a
subsequence of the person detections (the whole detection list in the
bootstrap case), and `getTracked` returns exactly the list `update`
returned, so iteration order is a deterministic function of the call
history. -/
theorem order_deterministic (s : PersonTracker) (ds : List Detection) :
    (∃ sub m, sub.Sublist (trackIds s.tracked) ∧
      trackIds (s.update ds).2 = sub ++ List.range' s.nextId m ∧
      (s.update ds).1.nextId = s.nextId + m) ∧
    (s.tracked.length = 0 → (s.update ds).2 = mkFresh s.nextId (personsOf ds)) ∧
    (s.tracked.length ≠ 0 → ∃ sel, sel.Sublist (personsOf ds) ∧
      (s.update ds).2 =
        ((stepAll (personsOf ds)
            (greedyMatch (buildCosts (personsOf ds) 0 s.tracked)) 0
            s.tracked).filter fun t => decide (t.age < maxAge)) ++
          mkFresh s.nextId sel) ∧
    PersonTracker.getTracked (s.update ds).1 = (s.update ds).2 := by
  obtain ⟨sub, m, h1, h2, h3, h4⟩ := update_decomp s ds
  refine ⟨⟨sub, m, h1, by rw [h4]; exact h2, h3⟩, ?_, ?_, ?_⟩
  · intro h
    rw [update_empty s ds h]
  · intro h
    obtain ⟨sel, hsub, heq⟩ :=
      spawnTracks_sublist (greedyMatch (buildCosts (personsOf ds) 0 s.tracked))
        (personsOf ds) s.nextId 0
    refine ⟨sel, hsub, ?_⟩
    rw [update_nonempty s ds h]
    show _ ++ _ = _
    rw [heq]
  · rw [h4]
    rfl

theorem order_deterministic_witness :
    trackIds ((PersonTracker.init.update [dWit]).2) = [] ++ List.range' 1 1 ∧
    (PersonTracker.init.update [dWit]).2 = mkFresh 1 (personsOf [dWit]) := by
  obtain ⟨⟨sub, m, hsub, hids, hnid⟩, hboot, -, -⟩ :=
    order_deterministic PersonTracker.init [dWit]
  have hsub' : sub = [] := List.sublist_nil.mp (by simpa [PersonTracker.init, trackIds] using hsub)
  subst hsub'
  have h2 : (PersonTracker.init.update [dWit]).1.nextId = 2 := by
    rw [update_empty PersonTracker.init [dWit] rfl]
    show 1 + (personsOf [dWit]).length = 2
    simp [personsOf, dWit]
  have h1 : PersonTracker.init.nextId = 1 := rfl
  rw [h1] at hids hnid
  have hm : m = 1 := by omega
  subst hm
  exact ⟨hids, hboot rfl⟩

/-! Candidate scoring: the claim-side formulas and their agreement with
the source functions. -/

/-- The IoU formula in the form the spec states it: intersection area over
union area with `union = areaA + areaB - intersection`, defined as 0 when
the union is 0. -/
def iouSpec (a b : Box) : ℝ :=
  let inter := max 0 (min (a.x + a.w) (b.x + b.w) - max a.x b.x) *
    max 0 (min (a.y + a.h) (b.y + b.h) - max a.y b.y)
  let union := a.w * a.h + b.w * b.h - inter
  if union = 0 then 0 else inter / union

/-- The proximity score in the form the spec states it:
`max(0, 1 - d / (max(predicted width, predicted height, 100) * 2))` with
`d` the distance between the centers of the predicted box and the
detection box. -/
def proximitySpec (t : TrackedPerson) (d : Detection) : ℝ :=
  max 0 (1 - centerDistance (predictedBox t) d.bbox /
    (max (max (predictedBox t).w (predictedBox t).h) 100 * 2))

/-- The combined score in the form the spec states it:
`0.6 * IoU + 0.4 * proximity`. -/
def combinedScoreSpec (t : TrackedPerson) (d : Detection) : ℝ :=
  0.6 * iouSpec (predictedBox t) d.bbox + 0.4 * proximitySpec t d

/-- A positive intersection forces a positive union. -/
theorem inter_pos_union_pos (a b : Box)
    (h : 0 < max 0 (min (a.x + a.w) (b.x + b.w) - max a.x b.x) *
      max 0 (min (a.y + a.h) (b.y + b.h) - max a.y b.y)) :
    0 < a.w * a.h + b.w * b.h -
      max 0 (min (a.x + a.w) (b.x + b.w) - max a.x b.x) *
        max 0 (min (a.y + a.h) (b.y + b.h) - max a.y b.y) := by
  rcases le_or_lt (min (a.x + a.w) (b.x + b.w) - max a.x b.x) 0 with hdx | hdx
  · rw [max_eq_left hdx, zero_mul] at h
    exact absurd h (lt_irrefl 0)
  · rcases le_or_lt (min (a.y + a.h) (b.y + b.h) - max a.y b.y) 0 with hdy | hdy
    · rw [max_eq_left hdy, mul_zero] at h
      exact absurd h (lt_irrefl 0)
    · rw [max_eq_right hdx.le, max_eq_right hdy.le] at h ⊢
      have h1 : min (a.x + a.w) (b.x + b.w) - max a.x b.x ≤ a.w := by
        have := min_le_left (a.x + a.w) (b.x + b.w)
        have := le_max_left a.x b.x
        linarith
      have h2 : min (a.x + a.w) (b.x + b.w) - max a.x b.x ≤ b.w := by
        have := min_le_right (a.x + a.w) (b.x + b.w)
        have := le_max_right a.x b.x
        linarith
      have h3 : min (a.y + a.h) (b.y + b.h) - max a.y b.y ≤ a.h := by
        have := min_le_left (a.y + a.h) (b.y + b.h)
        have := le_max_left a.y b.y
        linarith
      have h4 : min (a.y + a.h) (b.y + b.h) - max a.y b.y ≤ b.h := by
        have := min_le_right (a.y + a.h) (b.y + b.h)
        have := le_max_right a.y b.y
        linarith
      have ha : (min (a.x + a.w) (b.x + b.w) - max a.x b.x) *
          (min (a.y + a.h) (b.y + b.h) - max a.y b.y) ≤ a.w * a.h :=
        mul_le_mul h1 h3 hdy.le (le_trans hdx.le h1)
      have hb : (min (a.x + a.w) (b.x + b.w) - max a.x b.x) *
          (min (a.y + a.h) (b.y + b.h) - max a.y b.y) ≤ b.w * b.h :=
        mul_le_mul h2 h4 hdy.le (le_trans hdx.le h2)
      have hpos : 0 < (min (a.x + a.w) (b.x + b.w) - max a.x b.x) *
          (min (a.y + a.h) (b.y + b.h) - max a.y b.y) := mul_pos hdx hdy
      linarith

/-- The source `iou` agrees with the spec formula everywhere. -/
theorem iou_eq_iouSpec (a b : Box) : iou a b = iouSpec a b := by
  simp only [iou, iouSpec]
  rcases lt_trichotomy (a.w * a.h + b.w * b.h -
      max 0 (min (a.x + a.w) (b.x + b.w) - max a.x b.x) *
        max 0 (min (a.y + a.h) (b.y + b.h) - max a.y b.y)) 0 with h | h | h
  · rw [if_neg (by linarith), if_neg (by linarith)]
    have hI : max 0 (min (a.x + a.w) (b.x + b.w) - max a.x b.x) *
        max 0 (min (a.y + a.h) (b.y + b.h) - max a.y b.y) = 0 := by
      by_contra hne
      have hIpos : 0 < max 0 (min (a.x + a.w) (b.x + b.w) - max a.x b.x) *
          max 0 (min (a.y + a.h) (b.y + b.h) - max a.y b.y) :=
        lt_of_le_of_ne (mul_nonneg (le_max_left 0 _) (le_max_left 0 _)) (Ne.symm hne)
      have := inter_pos_union_pos a b hIpos
      linarith
    rw [hI, zero_div]
  · rw [if_neg (by linarith), if_pos (by linarith)]
  · rw [if_pos h, if_neg (by linarith)]

/-- The per-pair score of the cost loop agrees with the spec's combined
score. -/
theorem combinedScore_eq_spec (t : TrackedPerson) (d : Detection) :
    combinedScore t d = combinedScoreSpec t d := by
  simp only [combinedScore, combinedScoreSpec, proximitySpec, iou_eq_iouSpec]
  ring

theorem mem_buildCostsRow (t : TrackedPerson) (ti : ℕ) (l : List Detection) :
    ∀ (di : ℕ) (c : Cost), c ∈ buildCostsRow t ti di l ↔
      ∃ j d, l[j]? = some d ∧ c = ⟨ti, di + j, combinedScore t d⟩ ∧
        combinedScore t d > 0.1 := by
  induction l with
  | nil => intro di c; simp [buildCostsRow]
  | cons d rest ih =>
    intro di c
    constructor
    · intro hmem
      by_cases h : combinedScore t d > 0.1
      · rw [buildCostsRow, if_pos h] at hmem
        rcases List.mem_cons.mp hmem with h1 | h2
        · exact ⟨0, d, by simp, by simpa using h1, h⟩
        · obtain ⟨j, d', hj, hc, hs⟩ := (ih (di + 1) c).mp h2
          exact ⟨j + 1, d', by simpa using hj, by simpa [Nat.add_assoc, Nat.add_comm 1 j] using hc, hs⟩
      · rw [buildCostsRow, if_neg h] at hmem
        obtain ⟨j, d', hj, hc, hs⟩ := (ih (di + 1) c).mp hmem
        exact ⟨j + 1, d', by simpa using hj, by simpa [Nat.add_assoc, Nat.add_comm 1 j] using hc, hs⟩
    · rintro ⟨j, d', hj, hc, hs⟩
      cases j with
      | zero =>
        have hd : d' = d := by simpa using hj.symm
        subst hd
        rw [buildCostsRow, if_pos hs]
        exact List.mem_cons.mpr (Or.inl (by simpa using hc))
      | succ j' =>
        have hj' : rest[j']? = some d' := by simpa using hj
        have : c ∈ buildCostsRow t ti (di + 1) rest :=
          (ih (di + 1) c).mpr ⟨j', d', hj', by simpa [Nat.add_assoc, Nat.add_comm 1 j'] using hc, hs⟩
        by_cases h : combinedScore t d > 0.1
        · rw [buildCostsRow, if_pos h]
          exact List.mem_cons_of_mem _ this
        · rwa [buildCostsRow, if_neg h]

theorem mem_buildCosts (dets : List Detection) (l : List TrackedPerson) :
    ∀ (ti : ℕ) (c : Cost), c ∈ buildCosts dets ti l ↔
      ∃ i t, l[i]? = some t ∧ ∃ j d, dets[j]? = some d ∧
        c = ⟨ti + i, j, combinedScore t d⟩ ∧ combinedScore t d > 0.1 := by
  induction l with
  | nil => intro ti c; simp [buildCosts]
  | cons t rest ih =>
    intro ti c
    rw [buildCosts, List.mem_append]
    constructor
    · intro hmem
      rcases hmem with h1 | h2
      · obtain ⟨j, d, hj, hc, hs⟩ := (mem_buildCostsRow t ti dets 0 c).mp h1
        exact ⟨0, t, by simp, j, d, hj, by simpa using hc, hs⟩
      · obtain ⟨i, t', hi, j, d, hj, hc, hs⟩ := (ih (ti + 1) c).mp h2
        exact ⟨i + 1, t', by simpa using hi, j, d, hj,
          by simpa [Nat.add_assoc, Nat.add_comm 1 i] using hc, hs⟩
    · rintro ⟨i, t', hi, j, d, hj, hc, hs⟩
      cases i with
      | zero =>
        have ht : t' = t := by simpa using hi.symm
        subst ht
        exact Or.inl ((mem_buildCostsRow t' ti dets 0 c).mpr
          ⟨j, d, hj, by simpa using hc, hs⟩)
      | succ i' =>
        have hi' : rest[i']? = some t' := by simpa using hi
        exact Or.inr ((ih (ti + 1) c).mpr
          ⟨i', t', hi', j, d, hj,
            by simpa [Nat.add_assoc, Nat.add_comm 1 i'] using hc, hs⟩)

/-! The greedy matching loop: provenance, injectivity, maximality. -/

theorem greedyLoop_acc_subset (l : List Cost) :
    ∀ (acc : List (ℕ × ℕ)) (p : ℕ × ℕ), p ∈ acc → p ∈ greedyLoop acc l := by
  induction l with
  | nil => intro acc p hp; exact hp
  | cons c rest ih =>
    intro acc p hp
    rw [greedyLoop]
    split
    · exact ih acc p hp
    · exact ih _ p (List.mem_append.mpr (Or.inl hp))

theorem greedyLoop_mem (l : List Cost) :
    ∀ (acc : List (ℕ × ℕ)) (p : ℕ × ℕ), p ∈ greedyLoop acc l →
      p ∈ acc ∨ ∃ c ∈ l, p = (c.trackIdx, c.detIdx) := by
  induction l with
  | nil => intro acc p hp; exact Or.inl hp
  | cons c rest ih =>
    intro acc p hp
    rw [greedyLoop] at hp
    split at hp
    · rcases ih acc p hp with h1 | ⟨c', hc', he⟩
      · exact Or.inl h1
      · exact Or.inr ⟨c', List.mem_cons_of_mem _ hc', he⟩
    · rcases ih _ p hp with h1 | ⟨c', hc', he⟩
      · rcases List.mem_append.mp h1 with h2 | h3
        · exact Or.inl h2
        · exact Or.inr ⟨c, List.mem_cons_self _ _, by simpa using h3⟩
      · exact Or.inr ⟨c', List.mem_cons_of_mem _ hc', he⟩

theorem greedyMatch_mem (costs : List Cost) (p : ℕ × ℕ)
    (h : p ∈ greedyMatch costs) : ∃ c ∈ costs, p = (c.trackIdx, c.detIdx) := by
  rcases greedyLoop_mem (sortCosts costs) [] p h with h1 | ⟨c, hc, he⟩
  · simp at h1
  · exact ⟨c, (List.mem_mergeSort).mp hc, he⟩

/-- C2: in every update call with existing tracks, the retained candidate
set of the scoring pass is exactly the set of (track, detection) index
pairs whose combined score strictly exceeds 0.1, the combined score being
`0.6 * IoU + 0.4 * proximity` of the detection box against the track's
velocity-predicted box (with the spec's IoU and proximity formulas), and
no pair outside this set is ever committed as a match. -/
theorem candidate_retention (tracked : List TrackedPerson) (dets : List Detection) :
    (∀ c : Cost, c ∈ buildCosts dets 0 tracked ↔
      ∃ t d, tracked[c.trackIdx]? = some t ∧ dets[c.detIdx]? = some d ∧
        c.score = combinedScoreSpec t d ∧ combinedScoreSpec t d > 0.1) ∧
    (∀ t d, combinedScore t d = combinedScoreSpec t d) ∧
    (∀ p ∈ greedyMatch (buildCosts dets 0 tracked),
      ∃ t d, tracked[p.1]? = some t ∧ dets[p.2]? = some d ∧
        combinedScoreSpec t d > 0.1) := by
  have hchar : ∀ c : Cost, c ∈ buildCosts dets 0 tracked ↔
      ∃ t d, tracked[c.trackIdx]? = some t ∧ dets[c.detIdx]? = some d ∧
        c.score = combinedScoreSpec t d ∧ combinedScoreSpec t d > 0.1 := by
    intro c
    rw [mem_buildCosts]
    constructor
    · rintro ⟨i, t, hi, j, d, hj, hc, hs⟩
      subst hc
      rw [combinedScore_eq_spec] at hs
      exact ⟨t, d, by simpa using hi, hj, combinedScore_eq_spec t d, hs⟩
    · rintro ⟨t, d, hi, hj, hsc, hs⟩
      refine ⟨c.trackIdx, t, by simpa using hi, c.detIdx, d, hj, ?_, ?_⟩
      · rw [combinedScore_eq_spec, ← hsc]
        simp
      · rw [combinedScore_eq_spec]
        exact hs
  refine ⟨hchar, combinedScore_eq_spec, ?_⟩
  intro p hp
  obtain ⟨c, hc, he⟩ := greedyMatch_mem _ p hp
  obtain ⟨t, d, hi, hj, -, hs⟩ := (hchar c).mp hc
  exact ⟨t, d, by rw [he]; exact hi, by rw [he]; exact hj, hs⟩

/-- The box used by the scoring witnesses. -/
def bWit : Box := ⟨0, 0, 100, 100⟩

/-- A track sitting exactly on `bWit` with zero velocity. -/
def tWit : TrackedPerson := ⟨1, bWit, 1 / 2, 0, (0, 0)⟩

/-- A person detection sitting exactly on `bWit`. -/
def dBig : Detection := ⟨0, bWit, 9 / 10, "person"⟩

theorem combinedScore_tWit_dBig : combinedScore tWit dBig = 1 := by
  simp only [combinedScore, predictedBox, iou, centerDistance, tWit, dBig, bWit]
  norm_num

theorem costLe_trans : ∀ a b c : Cost, costLe a b → costLe b c → costLe a c := by
  intro a b c h1 h2
  simp only [costLe, decide_eq_true_eq] at h1 h2 ⊢
  exact le_trans h2 h1

theorem costLe_total : ∀ a b : Cost, costLe a b || costLe b a := by
  intro a b
  simp only [costLe, Bool.or_eq_true, decide_eq_true_eq]
  exact le_total b.score a.score

theorem sortCosts_sorted (costs : List Cost) :
    (sortCosts costs).Pairwise fun a b => b.score ≤ a.score := by
  have h := List.sorted_mergeSort costLe_trans costLe_total costs
  exact h.imp fun hab => by simpa [costLe] using hab

theorem sortCosts_stable (costs : List Cost) (c1 c2 : Cost)
    (h : List.Sublist [c1, c2] costs) (he : c1.score = c2.score) :
    List.Sublist [c1, c2] (sortCosts costs) :=
  List.pair_sublist_mergeSort costLe_trans costLe_total
    (by simp [costLe, he]) h

theorem greedyLoop_nodup (l : List Cost) :
    ∀ acc : List (ℕ × ℕ), (acc.map Prod.fst).Nodup → (acc.map Prod.snd).Nodup →
      ((greedyLoop acc l).map Prod.fst).Nodup ∧
        ((greedyLoop acc l).map Prod.snd).Nodup := by
  induction l with
  | nil => intro acc h1 h2; exact ⟨h1, h2⟩
  | cons c rest ih =>
    intro acc h1 h2
    rw [greedyLoop]
    split
    · exact ih acc h1 h2
    · rename_i hcond
      have hcond' : ¬(∃ m ∈ acc, m.1 = c.trackIdx) ∧ ¬(∃ m ∈ acc, m.2 = c.detIdx) := by
        simpa [not_or] using hcond
      apply ih
      · have hperm : ((acc ++ [(c.trackIdx, c.detIdx)]).map Prod.fst).Perm
            (((c.trackIdx, c.detIdx) :: acc).map Prod.fst) :=
          (List.perm_append_singleton _ _).map _
        rw [hperm.nodup_iff]
        refine List.nodup_cons.mpr ⟨?_, h1⟩
        simp only [List.mem_map]
        rintro ⟨m, hm, he⟩
        exact hcond'.1 ⟨m, hm, he⟩
      · have hperm : ((acc ++ [(c.trackIdx, c.detIdx)]).map Prod.snd).Perm
            (((c.trackIdx, c.detIdx) :: acc).map Prod.snd) :=
          (List.perm_append_singleton _ _).map _
        rw [hperm.nodup_iff]
        refine List.nodup_cons.mpr ⟨?_, h2⟩
        simp only [List.mem_map]
        rintro ⟨m, hm, he⟩
        exact hcond'.2 ⟨m, hm, he⟩

theorem greedyLoop_conflict (l : List Cost) :
    ∀ (acc : List (ℕ × ℕ)) (c : Cost), c ∈ l →
      (∃ p ∈ greedyLoop acc l, p.1 = c.trackIdx) ∨
        (∃ p ∈ greedyLoop acc l, p.2 = c.detIdx) := by
  induction l with
  | nil => intro acc c hc; simp at hc
  | cons c0 rest ih =>
    intro acc c hc
    rw [greedyLoop]
    split
    · rename_i hcond
      rcases List.mem_cons.mp hc with h1 | h2
      · subst h1
        have hcond' : (∃ m ∈ acc, m.1 = c.trackIdx) ∨ ∃ m ∈ acc, m.2 = c.detIdx := by
          simpa using hcond
        rcases hcond' with ⟨m, hm, he⟩ | ⟨m, hm, he⟩
        · exact Or.inl ⟨m, greedyLoop_acc_subset rest acc m hm, he⟩
        · exact Or.inr ⟨m, greedyLoop_acc_subset rest acc m hm, he⟩
      · exact ih acc c h2
    · rcases List.mem_cons.mp hc with h1 | h2
      · subst h1
        exact Or.inl ⟨(c.trackIdx, c.detIdx),
          greedyLoop_acc_subset rest _ _ (by simp), rfl⟩
      · exact ih _ c h2

/-- C3: matches are committed by walking the retained candidate pairs in
descending order of combined score (the sorted list is descending), each
track index and each detection index is committed at most once, a pair is
only skipped when its track or detection is already committed (every
retained candidate ends up with its track or its detection committed), and
two candidates with numerically equal scores keep their original
enumeration order in the sorted walk (stable sort), so the committed
matches are a deterministic function of the input. -/
theorem greedy_assignment (costs : List Cost) :
    ((greedyMatch costs).map Prod.fst).Nodup ∧
    ((greedyMatch costs).map Prod.snd).Nodup ∧
    ((sortCosts costs).Pairwise fun a b => b.score ≤ a.score) ∧
    (∀ c1 c2 : Cost, List.Sublist [c1, c2] costs → c1.score = c2.score →
      List.Sublist [c1, c2] (sortCosts costs)) ∧
    (∀ c ∈ costs,
      (∃ p ∈ greedyMatch costs, p.1 = c.trackIdx) ∨
        (∃ p ∈ greedyMatch costs, p.2 = c.detIdx)) := by
  obtain ⟨h1, h2⟩ := greedyLoop_nodup (sortCosts costs) [] (by simp) (by simp)
  refine ⟨h1, h2, sortCosts_sorted costs, sortCosts_stable costs, ?_⟩
  intro c hc
  exact greedyLoop_conflict (sortCosts costs) [] c (List.mem_mergeSort.mpr hc)

theorem greedy_assignment_witness :
    List.Sublist [⟨0, 0, (1 : ℝ)⟩, ⟨1, 1, (1 : ℝ)⟩]
      (sortCosts [⟨0, 0, (1 : ℝ)⟩, ⟨1, 1, (1 : ℝ)⟩]) ∧
    ((∃ p ∈ greedyMatch [⟨0, 0, (1 : ℝ)⟩, ⟨1, 1, (1 : ℝ)⟩], p.1 = 0) ∨
      (∃ p ∈ greedyMatch [⟨0, 0, (1 : ℝ)⟩, ⟨1, 1, (1 : ℝ)⟩], p.2 = 0)) :=
  ⟨(greedy_assignment [⟨0, 0, (1 : ℝ)⟩, ⟨1, 1, (1 : ℝ)⟩]).2.2.2.1
      ⟨0, 0, (1 : ℝ)⟩ ⟨1, 1, (1 : ℝ)⟩ (List.Sublist.refl _) rfl,
    (greedy_assignment [⟨0, 0, (1 : ℝ)⟩, ⟨1, 1, (1 : ℝ)⟩]).2.2.2.2
      ⟨0, 0, (1 : ℝ)⟩ (by simp)⟩

/-! Helper lemmas for the per-track effect of a committed or missed
match. -/

theorem find?_fst_eq (mts : List (ℕ × ℕ)) (hnd : (mts.map Prod.fst).Nodup)
    (p : ℕ × ℕ) (hp : p ∈ mts) :
    mts.find? (fun m => m.1 == p.1) = some p := by
  induction mts with
  | nil => simp at hp
  | cons q rest ih =>
    have hnd2 : (q.1 :: rest.map Prod.fst).Nodup := by
      rw [List.map_cons] at hnd
      exact hnd
    have hnd' := List.nodup_cons.mp hnd2
    rcases List.mem_cons.mp hp with h1 | h2
    · subst h1
      exact List.find?_cons_of_pos _ (by simp)
    · have hq : ¬(q.1 == p.1) = true := by
        simp only [beq_iff_eq]
        intro he
        exact hnd'.1 (he ▸ List.mem_map_of_mem Prod.fst h2)
      have hstep : List.find? (fun m => m.1 == p.1) (q :: rest) =
          List.find? (fun m => m.1 == p.1) rest :=
        List.find?_cons_of_neg rest hq
      rw [hstep]
      exact ih hnd'.2 h2

theorem buildCosts_nil (ti : ℕ) (l : List TrackedPerson) :
    buildCosts [] ti l = [] := by
  induction l generalizing ti with
  | nil => rfl
  | cons t rest ih =>
    rw [buildCosts, buildCostsRow, ih]
    rfl

theorem greedyMatch_nil : greedyMatch [] = [] := by
  rw [greedyMatch, sortCosts, List.mergeSort_nil]
  rfl

theorem mkFresh_age (nid : ℕ) (ds : List Detection) :
    ∀ u ∈ mkFresh nid ds, u.age = 0 := by
  induction ds generalizing nid with
  | nil => intro u hu; simp [mkFresh] at hu
  | cons d rest ih =>
    intro u hu
    rcases List.mem_cons.mp hu with h1 | h2
    · simp [h1, newTrack]
    · exact ih (nid + 1) u h2

theorem update_age_le (s : PersonTracker) (ds : List Detection)
    (u : TrackedPerson) (hu : u ∈ (s.update ds).2) : u.age ≤ 14 := by
  by_cases h : s.tracked.length = 0
  · rw [update_empty s ds h] at hu
    have := mkFresh_age s.nextId (personsOf ds) u hu
    omega
  · rw [update_nonempty s ds h] at hu
    rcases List.mem_append.mp hu with h1 | h2
    · have := (List.mem_filter.mp h1).2
      simp only [decide_eq_true_eq, maxAge] at this
      omega
    · have := spawnTracks_age _ _ s.nextId 0 u h2
      omega

/-- C4: a track committed to a match takes the detection's bbox and score,
age 0, and velocity equal to the detection position minus the track's
pre-update position (not the predicted one), and this updated track is in
the returned set. -/
theorem matched_track_state (s : PersonTracker) (ds : List Detection)
    (ti di : ℕ) (t : TrackedPerson) (d : Detection)
    (hne : ¬s.tracked.length = 0)
    (hm : (ti, di) ∈ greedyMatch (buildCosts (personsOf ds) 0 s.tracked))
    (ht : s.tracked[ti]? = some t)
    (hd : (personsOf ds)[di]? = some d) :
    stepTrack (personsOf ds)
        (greedyMatch (buildCosts (personsOf ds) 0 s.tracked)) ti t =
      { id := t.id, bbox := d.bbox, score := d.score, age := 0,
        velocity := (d.bbox.x - t.bbox.x, d.bbox.y - t.bbox.y) } ∧
    { id := t.id, bbox := d.bbox, score := d.score, age := 0,
      velocity := (d.bbox.x - t.bbox.x, d.bbox.y - t.bbox.y) } ∈
      (s.update ds).2 := by
  have hnd := (greedyLoop_nodup (sortCosts (buildCosts (personsOf ds) 0 s.tracked))
    [] (by simp) (by simp)).1
  have hfind : (greedyMatch (buildCosts (personsOf ds) 0 s.tracked)).find?
      (fun m => m.1 == ti) = some (ti, di) :=
    find?_fst_eq _ hnd (ti, di) hm
  have hstep : stepTrack (personsOf ds)
      (greedyMatch (buildCosts (personsOf ds) 0 s.tracked)) ti t =
      { id := t.id, bbox := d.bbox, score := d.score, age := 0,
        velocity := (d.bbox.x - t.bbox.x, d.bbox.y - t.bbox.y) } := by
    simp only [stepTrack, hfind, hd]
  have hga : (stepAll (personsOf ds)
      (greedyMatch (buildCosts (personsOf ds) 0 s.tracked)) 0 s.tracked)[ti]? =
      some (stepTrack (personsOf ds)
        (greedyMatch (buildCosts (personsOf ds) 0 s.tracked)) ti t) := by
    rw [stepAll_getElem?, ht]
    simp
  have hmem := List.getElem?_mem hga
  have hmemf : stepTrack (personsOf ds)
      (greedyMatch (buildCosts (personsOf ds) 0 s.tracked)) ti t ∈
      (stepAll (personsOf ds)
        (greedyMatch (buildCosts (personsOf ds) 0 s.tracked)) 0
        s.tracked).filter fun u => decide (u.age < maxAge) :=
    List.mem_filter.mpr ⟨hmem, by rw [hstep]; simp [maxAge]⟩
  refine ⟨hstep, ?_⟩
  rw [update_nonempty s ds hne]
  exact List.mem_append.mpr (Or.inl (hstep ▸ hmemf))

/-- C5: a pre-existing track not committed to a match in an update call
(in particular every track when the detection list is empty, since then no
candidate exists) ages by exactly 1 and has its bbox position advanced by
its velocity, with id, score, velocity, and bbox size unchanged; if its
new age is below the eviction threshold it appears in the returned set in
that aged state. -/
theorem unmatched_track_state (s : PersonTracker) (ds : List Detection)
    (ti : ℕ) (t : TrackedPerson)
    (hne : ¬s.tracked.length = 0)
    (ht : s.tracked[ti]? = some t)
    (hnm : ∀ m ∈ greedyMatch (buildCosts (personsOf ds) 0 s.tracked), m.1 ≠ ti) :
    stepTrack (personsOf ds)
        (greedyMatch (buildCosts (personsOf ds) 0 s.tracked)) ti t =
      { id := t.id,
        bbox := { x := t.bbox.x + t.velocity.1, y := t.bbox.y + t.velocity.2,
                  w := t.bbox.w, h := t.bbox.h },
        score := t.score, age := t.age + 1, velocity := t.velocity } ∧
    (t.age + 1 < maxAge →
      { id := t.id,
        bbox := { x := t.bbox.x + t.velocity.1, y := t.bbox.y + t.velocity.2,
                  w := t.bbox.w, h := t.bbox.h },
        score := t.score, age := t.age + 1, velocity := t.velocity } ∈
        (s.update ds).2) ∧
    (personsOf ds = [] →
      greedyMatch (buildCosts (personsOf ds) 0 s.tracked) = []) := by
  have hfind : (greedyMatch (buildCosts (personsOf ds) 0 s.tracked)).find?
      (fun m => m.1 == ti) = none :=
    List.find?_eq_none.mpr fun m hm => by simpa using hnm m hm
  have hstep : stepTrack (personsOf ds)
      (greedyMatch (buildCosts (personsOf ds) 0 s.tracked)) ti t =
      { id := t.id,
        bbox := { x := t.bbox.x + t.velocity.1, y := t.bbox.y + t.velocity.2,
                  w := t.bbox.w, h := t.bbox.h },
        score := t.score, age := t.age + 1, velocity := t.velocity } := by
    simp only [stepTrack, hfind]
  refine ⟨hstep, ?_, ?_⟩
  · intro hage
    have hga : (stepAll (personsOf ds)
        (greedyMatch (buildCosts (personsOf ds) 0 s.tracked)) 0 s.tracked)[ti]? =
        some (stepTrack (personsOf ds)
          (greedyMatch (buildCosts (personsOf ds) 0 s.tracked)) ti t) := by
      rw [stepAll_getElem?, ht]
      simp
    have hmem := List.getElem?_mem hga
    have hmemf : stepTrack (personsOf ds)
        (greedyMatch (buildCosts (personsOf ds) 0 s.tracked)) ti t ∈
        (stepAll (personsOf ds)
          (greedyMatch (buildCosts (personsOf ds) 0 s.tracked)) 0
          s.tracked).filter fun u => decide (u.age < maxAge) :=
      List.mem_filter.mpr ⟨hmem, by rw [hstep]; simpa using hage⟩
    rw [update_nonempty s ds hne]
    exact List.mem_append.mpr (Or.inl (hstep ▸ hmemf))
  · intro hpd
    rw [hpd, buildCosts_nil, greedyMatch_nil]

/-! Concrete evaluations shared by the witnesses: one track on `bWit`,
one detection on the same box, perfect score 1. -/

theorem combinedScoreSpec_tWit_dBig : combinedScoreSpec tWit dBig = 1 := by
  rw [← combinedScore_eq_spec, combinedScore_tWit_dBig]

theorem buildCosts_wit : buildCosts [dBig] 0 [tWit] = [⟨0, 0, (1 : ℝ)⟩] := by
  have h : combinedScore tWit dBig > 0.1 := by
    rw [combinedScore_tWit_dBig]
    norm_num
  simp only [buildCosts, buildCostsRow, if_pos h, combinedScore_tWit_dBig,
    List.append_nil]
  norm_num

theorem greedyMatch_wit : greedyMatch [⟨0, 0, (1 : ℝ)⟩] = [(0, 0)] := by
  rw [greedyMatch, sortCosts, List.mergeSort_singleton]
  rw [greedyLoop]
  simp [greedyLoop]

theorem candidate_retention_witness :
    (⟨0, 0, (1 : ℝ)⟩ : Cost) ∈ buildCosts [dBig] 0 [tWit] :=
  ((candidate_retention [tWit] [dBig]).1 ⟨0, 0, (1 : ℝ)⟩).mpr
    ⟨tWit, dBig, by simp, by simp, combinedScoreSpec_tWit_dBig.symm,
      by rw [combinedScoreSpec_tWit_dBig]; norm_num⟩

/-- The engine state holding exactly `tWit`, counter at 2. -/
def sWit : PersonTracker := ⟨[tWit], 2⟩

theorem personsOf_dBig : personsOf [dBig] = [dBig] := by
  simp [personsOf, dBig]

theorem matched_track_state_witness :
    { id := tWit.id, bbox := dBig.bbox, score := dBig.score, age := 0,
      velocity := (dBig.bbox.x - tWit.bbox.x, dBig.bbox.y - tWit.bbox.y) } ∈
      (sWit.update [dBig]).2 :=
  (matched_track_state sWit [dBig] 0 0 tWit dBig (by simp [sWit])
    (by rw [personsOf_dBig]; show (0, 0) ∈ greedyMatch (buildCosts [dBig] 0 sWit.tracked)
        rw [show sWit.tracked = [tWit] from rfl, buildCosts_wit, greedyMatch_wit]
        simp)
    (by simp [sWit]) (by rw [personsOf_dBig]; simp)).2

theorem unmatched_track_state_witness :
    { id := tWit.id,
      bbox := { x := tWit.bbox.x + tWit.velocity.1,
                y := tWit.bbox.y + tWit.velocity.2,
                w := tWit.bbox.w, h := tWit.bbox.h },
      score := tWit.score, age := tWit.age + 1, velocity := tWit.velocity } ∈
      (sWit.update []).2 :=
  (unmatched_track_state sWit [] 0 tWit (by simp [sWit]) (by simp [sWit])
    (by intro m hm
        rw [show personsOf [] = [] from rfl, buildCosts_nil, greedyMatch_nil] at hm
        simp at hm)).2.1
    (by show tWit.age + 1 < maxAge; norm_num [tWit, maxAge])

theorem trackIds_nodup_getElem?_inj (l : List TrackedPerson)
    (h : (trackIds l).Nodup) :
    ∀ (i j : ℕ) (a b : TrackedPerson),
      l[i]? = some a → l[j]? = some b → a.id = b.id → i = j := by
  induction l with
  | nil => intro i j a b hi; simp at hi
  | cons x rest ih =>
    intro i j a b hi hj he
    have h2 : (x.id :: trackIds rest).Nodup := by
      simpa only [trackIds, List.map_cons] using h
    have h' := List.nodup_cons.mp h2
    cases i with
    | zero =>
      cases j with
      | zero => rfl
      | succ j' =>
        have ha : a = x := by have := hi; simp at this; exact this.symm
        have hj' : rest[j']? = some b := by simpa using hj
        have hbmem : b.id ∈ trackIds rest :=
          List.mem_map_of_mem _ (List.getElem?_mem hj')
        have hxid : x.id = b.id := by rw [← ha]; exact he
        exact absurd (show x.id ∈ trackIds rest by rw [hxid]; exact hbmem) h'.1
    | succ i' =>
      cases j with
      | zero =>
        have hb : b = x := by have := hj; simp at this; exact this.symm
        have hi' : rest[i']? = some a := by simpa using hi
        have hamem : a.id ∈ trackIds rest :=
          List.mem_map_of_mem _ (List.getElem?_mem hi')
        have hxid : x.id = a.id := by rw [← hb]; exact he.symm
        exact absurd (show x.id ∈ trackIds rest by rw [hxid]; exact hamem) h'.1
      | succ j' =>
        have hi' : rest[i']? = some a := by simpa using hi
        have hj' : rest[j']? = some b := by simpa using hj
        have := ih h'.2 i' j' a b hi' hj' he
        omega

/-- C6: a track present at the start of a non-bootstrap `update` call is
absent from the returned set if and only if its age after this call's
matching and aging steps reaches the eviction threshold 15 (stated for a
state satisfying the id invariant: its id appears in the returned set iff
the stepped age is below `maxAge`), and every track in any set returned by
`update` has age at most 14. -/
theorem eviction_threshold (s : PersonTracker) (ds : List Detection)
    (ti : ℕ) (t : TrackedPerson)
    (hinv : Inv s)
    (hne : ¬s.tracked.length = 0)
    (ht : s.tracked[ti]? = some t) :
    (t.id ∈ trackIds (s.update ds).2 ↔
      (stepTrack (personsOf ds)
        (greedyMatch (buildCosts (personsOf ds) 0 s.tracked)) ti t).age < maxAge) ∧
    ∀ (s' : PersonTracker) (ds' : List Detection) (u : TrackedPerson),
      u ∈ (s'.update ds').2 → u.age ≤ 14 := by
  refine ⟨?_, fun s' ds' u hu => update_age_le s' ds' u hu⟩
  have hout : (s.update ds).2 =
      ((stepAll (personsOf ds)
          (greedyMatch (buildCosts (personsOf ds) 0 s.tracked)) 0
          s.tracked).filter fun v => decide (v.age < maxAge)) ++
        (spawnTracks (greedyMatch (buildCosts (personsOf ds) 0 s.tracked))
          s.nextId 0 (personsOf ds)).1 := by
    rw [update_nonempty s ds hne]
  have hga : (stepAll (personsOf ds)
      (greedyMatch (buildCosts (personsOf ds) 0 s.tracked)) 0 s.tracked)[ti]? =
      some (stepTrack (personsOf ds)
        (greedyMatch (buildCosts (personsOf ds) 0 s.tracked)) ti t) := by
    rw [stepAll_getElem?, ht]
    simp
  have huid : (stepTrack (personsOf ds)
      (greedyMatch (buildCosts (personsOf ds) 0 s.tracked)) ti t).id = t.id :=
    stepTrack_id _ _ _ _
  have hnodup : (trackIds s.tracked).Nodup :=
    hinv.1.imp fun hlt => Nat.ne_of_lt hlt
  constructor
  · intro hmem
    rw [hout, trackIds_append] at hmem
    rcases List.mem_append.mp hmem with h1 | h2
    · obtain ⟨v, hv, hvid⟩ := List.mem_map.mp h1
      obtain ⟨hv1, hv2⟩ := List.mem_filter.mp hv
      obtain ⟨tj, htj⟩ := List.mem_iff_getElem?.mp hv1
      rw [stepAll_getElem?] at htj
      obtain ⟨t', ht', hvt'⟩ := Option.map_eq_some'.mp htj
      have hvid' : v.id = t'.id := by
        rw [← hvt']
        exact stepTrack_id _ _ _ _
      have htij : tj = ti :=
        trackIds_nodup_getElem?_inj s.tracked hnodup tj ti t' t ht' ht
          (by rw [← hvid', hvid])
      subst htij
      have ht'' : t' = t := by
        rw [ht'] at ht
        exact Option.some.inj ht
      subst ht''
      rw [← hvt'] at hv2
      simp only [Nat.zero_add] at hv2
      simpa using hv2
    · exfalso
      obtain ⟨m, hids, -⟩ :=
        spawnTracks_decomp (greedyMatch (buildCosts (personsOf ds) 0 s.tracked))
          (personsOf ds) s.nextId 0
      rw [hids] at h2
      have hge : s.nextId ≤ t.id := (List.mem_range'_1.mp h2).1
      have hlt : t.id < s.nextId :=
        hinv.2 t.id (List.mem_map_of_mem _ (List.getElem?_mem ht))
      omega
  · intro hage
    have hmemf : stepTrack (personsOf ds)
        (greedyMatch (buildCosts (personsOf ds) 0 s.tracked)) ti t ∈
        (stepAll (personsOf ds)
          (greedyMatch (buildCosts (personsOf ds) 0 s.tracked)) 0
          s.tracked).filter fun v => decide (v.age < maxAge) :=
      List.mem_filter.mpr ⟨List.getElem?_mem hga, by simpa using hage⟩
    have hin : (stepTrack (personsOf ds)
        (greedyMatch (buildCosts (personsOf ds) 0 s.tracked)) ti t).id ∈
        trackIds ((stepAll (personsOf ds)
          (greedyMatch (buildCosts (personsOf ds) 0 s.tracked)) 0
          s.tracked).filter fun v => decide (v.age < maxAge)) :=
      List.mem_map_of_mem _ hmemf
    rw [hout, trackIds_append]
    exact List.mem_append.mpr (Or.inl (huid ▸ hin))

theorem eviction_threshold_witness :
    tWit.id ∈ trackIds ((sWit.update [dBig]).2) := by
  have hinv : Inv sWit :=
    ⟨by simp [sWit, tWit, trackIds], by simp [sWit, tWit, trackIds]⟩
  apply (eviction_threshold sWit [dBig] 0 tWit hinv (by simp [sWit])
    (by simp [sWit])).1.mpr
  show (stepTrack (personsOf [dBig])
    (greedyMatch (buildCosts (personsOf [dBig]) 0 sWit.tracked)) 0 tWit).age < maxAge
  rw [personsOf_dBig]
  have htr : sWit.tracked = [tWit] := rfl
  rw [htr, buildCosts_wit, greedyMatch_wit]
  simp [stepTrack, maxAge]

/-- The round-trip track of the spec's point-query example: rectangle
(100, 100, 40, 40). -/
def pQuery : TrackedPerson := ⟨1, ⟨100, 100, 40, 40⟩, 1, 0, (0, 0)⟩

/-- C8: `findPersonAtPoint` scales the query point by `videoWidth /
canvasWidth` and `videoHeight / canvasHeight` independently, returns
`none` exactly when no track's rectangle contains the scaled point
(inclusive bounds on all four edges, the `containsPt` predicate), returns
the first containing track in list order otherwise, and on the spec's
example resolves canvas point (60, 60) to the (100, 100, 40, 40) track
and canvas point (10, 10) to `none` for a 1280x720 source on a 640x360
canvas. -/
theorem point_query (persons : List TrackedPerson) (x y cw ch vw vh : ℝ) :
    (findPersonAtPoint persons x y cw ch vw vh = none ↔
      ∀ p ∈ persons, ¬containsPt p (x * (vw / cw)) (y * (vh / ch))) ∧
    (∀ p : TrackedPerson, findPersonAtPoint persons x y cw ch vw vh = some p →
      containsPt p (x * (vw / cw)) (y * (vh / ch)) ∧
      ∃ pre post, persons = pre ++ p :: post ∧
        ∀ q ∈ pre, ¬containsPt q (x * (vw / cw)) (y * (vh / ch))) ∧
    findPersonAtPoint [pQuery] 60 60 640 360 1280 720 = some pQuery ∧
    findPersonAtPoint [pQuery] 10 10 640 360 1280 720 = none := by
  refine ⟨?_, ?_, ?_, ?_⟩
  · simp only [findPersonAtPoint, List.find?_eq_none, decide_eq_true_eq]
  · intro p hp
    simp only [findPersonAtPoint] at hp
    rw [List.find?_eq_some] at hp
    obtain ⟨hpred, pre, post, heq, hpre⟩ := hp
    exact ⟨by simpa using hpred, pre, post, heq,
      fun q hq => by simpa using hpre q hq⟩
  · have hc : containsPt pQuery (60 * (1280 / 640)) (60 * (720 / 360)) := by
      norm_num [containsPt, pQuery]
    simp [findPersonAtPoint, hc]
  · have hnc : ¬containsPt pQuery (10 * (1280 / 640)) (10 * (720 / 360)) := by
      norm_num [containsPt, pQuery]
    simp [findPersonAtPoint, hnc]

theorem point_query_witness :
    findPersonAtPoint [pQuery] 10 10 640 360 1280 720 = none ∧
    containsPt pQuery (60 * (1280 / 640)) (60 * (720 / 360)) :=
  ⟨(point_query [pQuery] 10 10 640 360 1280 720).1.mpr
      (by
        intro p hp
        rw [List.mem_singleton.mp hp]
        norm_num [containsPt, pQuery]),
    ((point_query [pQuery] 60 60 640 360 1280 720).2.1 pQuery
      (point_query [pQuery] 60 60 640 360 1280 720).2.2.1).1⟩

end SmartFocus
